import Mathlib

/-!
Verification development for the vite-live-preview repository.

The first half of the file gives a shallow embedding, in Lean, of the
components of the source, translated directly from the TypeScript; the
second half proves the specification properties about them.

* `LivePreview.Text`    : character-level text utilities shared by the
  middleware models (substring search, HTML escaping, UTF-8 byte length).
* `LivePreview.Ping`    : the liveness-probe middleware (src/middleware/ping).
* `LivePreview.Delay`   : the coordinator-gate middleware (middleware/delay.ts).
* `LivePreview.ErrorMw` : the build-error middleware (src/middleware/error.ts).
* `LivePreview.Inject`  : the HTML response interceptor finalize path
  (the restore closure of the client-inject middleware / plugin-serve.ts).
* `LivePreview.Coord`   : the request/build coordinator debounce
  (onRequest in src/plugin/build.ts).
* `LivePreview.Reload`  : the debounced reload broadcast
  (reload in src/plugin/preview.ts).
* `LivePreview.MutexM`  : an event-loop operational model of the async mutex
  (src/util/mutex.ts).

JavaScript strings are modelled as `List Char`; buffers holding valid UTF-8
text are modelled at the same level, with `Buffer.byteLength(s, "utf8")`
modelled as the sum of the UTF-8 sizes of the characters.  Promises and
timers are modelled operationally; see each section header for the event
model used.
-/

namespace LivePreview

namespace Text

/-- One character of the escape performed by the escape-goat `htmlEscape`
function: ampersand, double quote, apostrophe, less-than and greater-than
are replaced by their HTML entities.
The library applies five sequential global replaces; since no replacement
output contains a character that a later replace rewrites (the introduced
`&` characters come from the replace that runs first), the sequential
replaces equal this per-character map. -/
def htmlEscapeChar (c : Char) : List Char :=
  if c = '&' then "&amp;".toList
  else if c = Char.ofNat 34 then "&quot;".toList
  else if c = Char.ofNat 39 then "&#39;".toList
  else if c = '<' then "&lt;".toList
  else if c = '>' then "&gt;".toList
  else [c]

/-- escape-goat `htmlEscape` on a JavaScript string. -/
def htmlEscape (s : List Char) : List Char :=
  (s.map htmlEscapeChar).flatten

/-- Model of `Buffer.byteLength(s, "utf8")` for text content: the sum of the
UTF-8 encoded sizes of the characters. -/
def byteLen (s : List Char) : Nat :=
  (s.map Char.utf8Size).sum

/-- JavaScript `haystack.includes(needle)`: some contiguous substring of
`hay` equals `pat`. -/
def includesStr (hay pat : List Char) : Bool :=
  hay.tails.any (fun t => pat.isPrefixOf t)

/-- Model of `req.headers.accept?.includes("html")`: an absent header is
`undefined`, and `undefined?.includes(..)` is falsy. -/
def acceptIncludesHtml (accept : Option (List Char)) : Bool :=
  match accept with
  | none => false
  | some s => includesStr s "html".toList

/-- Whether the case-insensitive pattern `pat` (given lowercase) matches at
the head of `cs`, as the regexes `/<\/(?:head|body|html)>/iu` and
`/(?=<\/body>)|$/iu` match their literal parts: each character matches up to
ASCII case. -/
def matchesAt (pat cs : List Char) : Bool :=
  ((cs.take pat.length).map Char.toLower) == pat

/-- Index of the first position of `cs` satisfying the position predicate
`p` (applied to the suffix starting there); the JavaScript
`text.search(re)` first-match semantics. -/
def findFirst (p : List Char → Bool) : List Char → Option Nat
  | [] => none
  | c :: rest =>
    if p (c :: rest) then some 0
    else (findFirst p rest).map (· + 1)

/-- Index of the first position where the case-insensitive pattern `pat`
matches. -/
def findPat (pat : List Char) (cs : List Char) : Option Nat :=
  findFirst (matchesAt pat) cs

/-- Model of `doc.replace(/(?=PAT)|$/iu, ins)`: insert `ins` at the first
position where the (case-insensitive) pattern matches, or at the end of the
string when it matches nowhere.  Used by the error middleware to place the
error block before the closing body tag. -/
def insertBeforeFirst (doc pat ins : List Char) : List Char :=
  match findPat pat doc with
  | some i => doc.take i ++ ins ++ doc.drop i
  | none => doc ++ ins

end Text

/-- Observable outcome of one connect-style middleware on one request:
either it passes the request to the next handler untouched, or it finishes
the response itself with the given status, headers and body. -/
inductive MwOutcome where
  | next
  | respond (status : Nat) (contentType : Option (List Char))
      (contentLength : Option Nat) (body : List Char)
  deriving DecidableEq, Repr

namespace Ping

/-- The reserved sentinel Accept value used by the client reconnect loop. -/
def pingAcceptHeader : List Char := "text/x-vite-ping".toList

/-- Translation of the ping middleware (src/middleware/ping.ts):
if the Accept header is not exactly the sentinel, call next(); otherwise
set status 204 and end the response with no body. -/
def middlewarePing (accept : Option (List Char)) : MwOutcome :=
  if accept = some pingAcceptHeader then MwOutcome.respond 204 none none []
  else MwOutcome.next

end Ping

namespace Delay

/-- Settlement of the build promise handed to the delay middleware by
`getBuildPromise`: it either resolves (also covering the case where no
deferred build signal exists, which resolves immediately) or rejects. -/
inductive PromiseOutcome where
  | resolvedOk
  | rejectedErr (msg : List Char)
  deriving DecidableEq, Repr

/-- JavaScript `promise.finally(handler)`: the zero-argument handler runs
exactly once when the promise settles, whether it resolved or rejected.
Only the calls emitted by the handler are observed. -/
def finallyCalls {α : Type} (p : PromiseOutcome) (handler : Unit → List α) : List α :=
  match p with
  | .resolvedOk => handler ()
  | .rejectedErr _ => handler ()

/-- Translation of middleware/delay.ts: the middleware body is
`void getPromise().finally(() => next());`.  The result is the list of
arguments of the calls made to `next` while handling one request (`none`
standing for a call with no argument). -/
def middlewareDelay (buildPromise : PromiseOutcome) : List (Option (List Char)) :=
  finallyCalls buildPromise (fun _ => [none])

end Delay

namespace ErrorMw

/-- The ANSI escape character (0x1B), the lead byte of the terminal color
sequences that the external ansi-html collaborator rewrites. -/
def escChar : Char := Char.ofNat 27

/-- Translation of src/middleware/error.ts.  The raw error.html template
asset, the client script tag (derived from the base path) and the external
ansi-html collaborator are parameters.  When no error is recorded the
middleware calls next(); when one is recorded, non-HTML-accepting requests
get a bare 500 with an empty body, and HTML-accepting requests get an HTML
page built by inserting the script tag before the closing head tag and the
escaped error block before the closing body tag, with Content-Type and
Content-Length set. -/
def middlewareError (template scriptTag : List Char)
    (ansiHtmlFn : List Char → List Char)
    (theError : Option (List Char)) (accept : Option (List Char)) : MwOutcome :=
  match theError with
  | none => MwOutcome.next
  | some errMessage =>
    if Text.acceptIncludesHtml accept = false then
      MwOutcome.respond 500 none none []
    else
      let message := ansiHtmlFn (Text.htmlEscape errMessage)
      let html :=
        Text.insertBeforeFirst
          (Text.insertBeforeFirst template "</head>".toList scriptTag)
          "</body>".toList
          ("<pre class=\"error\"><code>".toList ++ message ++ "</code></pre>\n".toList)
      MwOutcome.respond 500 (some "text/html".toList) (some (Text.byteLen html)) html

end ErrorMw

namespace Inject

/-- Whether a closing `</head>`, `</body>` or `</html>` tag begins at the
head of `cs`, case-insensitively: the alternation of the injection regex
`/<\/(?:head|body|html)>/iu`. -/
def isCloseTagAt (cs : List Char) : Bool :=
  Text.matchesAt "</head>".toList cs || Text.matchesAt "</body>".toList cs
    || Text.matchesAt "</html>".toList cs

/-- Index of the first closing head/body/html tag:
`text.search(/<\/(?:head|body|html)>/iu)`, as an `Option` instead of -1. -/
def findCloseTag (cs : List Char) : Option Nat :=
  Text.findFirst isCloseTagAt cs

/-- The finalize (restore) path of the HTML response interceptor for a
response whose body was fully buffered, from the `restore` closure of the
client-inject middleware (and the identical logic in plugin-serve.ts): the
accumulated chunks are concatenated; if the concatenation contains a closing
head/body/html tag (case-insensitive), the client script tag is spliced in
immediately before the first such tag and the Content-Length header is set
to the byte length of the spliced content; otherwise the buffered content is
written through unchanged and no header is touched.  An empty chunk list
writes nothing.  The result is the pair of the content written and the
Content-Length header value set, if any. -/
def restoreFinalize (chunks : List (List Char)) (scriptTag : List Char) :
    List Char × Option Nat :=
  if chunks.isEmpty then ([], none)
  else
    let text := chunks.flatten
    match findCloseTag text with
    | some i =>
      let content := text.take i ++ scriptTag ++ text.drop i
      (content, some (Text.byteLen content))
    | none => (text, none)

end Inject

namespace Coord

/-- Events of the request/build coordinator in src/plugin/build.ts.
`start` is a call of `onRequest` (a request begins), `finish` a call of the
completion callback it returned (a request ends), and `fire` the settle
timer callback running after its 500 ms delay elapsed uncontested.  A burst
of events "within the settle window" is a trace segment with no `fire`
between them; the JavaScript timer guarantee that a cleared timer never
fires is modelled by `fire` being a no-op when no timer is armed. -/
inductive CoordEvent where
  | start
  | finish
  | fire
  deriving DecidableEq, Repr

/-- Coordinator state: `requestCount` is the in-flight request counter,
`signalPending` whether the `deferToRequests` deferred signal currently
exists (the build is paused), `timerArmed` whether `deferToRequestsDelay`
is a pending timer, and `resolveCount` a ghost counter of how many times
`deferToRequests.resolve()` ran on an existing signal. -/
structure CoordState where
  requestCount : Nat
  signalPending : Bool
  timerArmed : Bool
  resolveCount : Nat
  deriving DecidableEq, Repr

def coordInit : CoordState :=
  { requestCount := 0, signalPending := false, timerArmed := false, resolveCount := 0 }

/-- One coordinator event, translated from `onRequest`:

* `start`: `clearTimeout(deferToRequestsDelay); requestCount++;`
  and `if (!deferToRequests) deferToRequests = defer();`
* `finish`: `requestCount = Math.max(0, requestCount - 1);` and, if the
  counter reached zero, `clearTimeout` plus `setTimeout(.., 500)` (arming
  the settle timer);
* `fire` (the timer callback, only possible while armed):
  `deferToRequests?.resolve(); deferToRequests = undefined;`. -/
def coordStep (s : CoordState) : CoordEvent → CoordState
  | .start =>
    { s with
      timerArmed := false
      requestCount := s.requestCount + 1
      signalPending := true }
  | .finish =>
    let rc := s.requestCount - 1
    if rc = 0 then { s with requestCount := rc, timerArmed := true }
    else { s with requestCount := rc }
  | .fire =>
    if s.timerArmed then
      { s with
        timerArmed := false
        resolveCount := s.resolveCount + (if s.signalPending then 1 else 0)
        signalPending := false }
    else s

def coordRun (s : CoordState) (es : List CoordEvent) : CoordState :=
  es.foldl coordStep s

end Coord

namespace Reload

/-- Events of the reload broadcaster in src/plugin/preview.ts while the
preview server is running.  `closeBundle` is the build tool closeBundle hook
running with `livePreviewServer` set, which calls `livePreviewServer.reload()`;
`fire` is the debounce timer callback running after `reloadDelay` elapsed
uncontested (a cleared timer never fires, so `fire` is a no-op when no timer
is armed); `connect`/`disconnect` are socket registry changes. -/
inductive ReloadEvent where
  | closeBundle
  | fire
  | connect (socket : Nat)
  | disconnect (socket : Nat)
  deriving DecidableEq, Repr

/-- Broadcaster state: whether the `reloadTimeout` debounce timer is
pending, the registered sockets (the `sockets` set, in registration order),
and a ghost log of every message sent on the push channel, as pairs of the
receiving socket and the exact string passed to `socket.send`. -/
structure ReloadState where
  timerArmed : Bool
  sockets : List Nat
  sent : List (Nat × String)
  deriving DecidableEq, Repr

def reloadInit : ReloadState :=
  { timerArmed := false, sockets := [], sent := [] }

/-- The exact payload `JSON.stringify({ type: "page-reload" })`. -/
def pageReloadJson : String := "\x7b\"type\":\"page-reload\"\x7d"

/-- One broadcaster event, translated from `closeBundle` and `reload()`:

* `closeBundle` (server running): `reload()` returns immediately when
  reload is disabled; otherwise `clearTimeout(reloadTimeout)` and a new
  `setTimeout(.., reloadDelay)` re-arm the debounce timer;
* `fire`: the timer callback sends `JSON.stringify({type: "page-reload"})`
  to every currently registered socket;
* `connect s` / `disconnect s`: `sockets.add(socket)` on connection and the
  close handler `sockets.delete(socket)`. -/
def reloadStep (enabled : Bool) (s : ReloadState) : ReloadEvent → ReloadState
  | .closeBundle =>
    if enabled then { s with timerArmed := true } else s
  | .fire =>
    if s.timerArmed then
      { s with
        timerArmed := false
        sent := s.sent ++ s.sockets.map (fun sk => (sk, pageReloadJson)) }
    else s
  | .connect sk => { s with sockets := s.sockets ++ [sk] }
  | .disconnect sk => { s with sockets := s.sockets.filter (fun x => x ≠ sk) }

def reloadRun (enabled : Bool) (s : ReloadState) (es : List ReloadEvent) : ReloadState :=
  es.foldl (reloadStep enabled) s

end Reload

/-- Replace the element of `l` at index `i` by `f` of it; out-of-range
indices leave the list unchanged. -/
def setIdx {α : Type} (l : List α) (i : Nat) (f : α → α) : List α :=
  match l, i with
  | [], _ => []
  | a :: rest, 0 => f a :: rest
  | a :: rest, n + 1 => a :: setIdx rest n f

namespace MutexM

/-!
Operational model of createMutex in src/util/mutex.ts on the single-threaded
event loop.

The module closure holds one variable `waiting : Promise | undefined`.  Each
successful pass through `acquire` creates one lock together with the promise
stored into `waiting`; we identify the two and call the index of that lock
its id.  An `acquire(owner)` call creates a task; the async function body
runs synchronously up to its first suspension: the `while (waiting)` loop
checks `waiting`, and either completes (creating the lock) when it is
`undefined`, or subscribes the continuation to the pending promise.  When a
promise is resolved by `release`, its subscribers are appended, in
subscription order, to the event-loop microtask queue; a woken continuation
re-runs the `while` check.  `release` of lock `i` runs the closure
`() => { waiting = undefined; active = false; resolve(); }`: it always
clears the shared `waiting` slot and the active flag of the lock, and resolves
the promise, which wakes the subscribers the first time only (promise
resolution is one-shot).

Traces interleave three external events: an `acquire` call, a `release()`
call on the lock handle with a given id, and the event loop dispatching one
microtask.  Completion of the acquire body (the caller becoming holder) is
recorded in `completedOrder`; the extra microtask hops that the JavaScript
engine adds before the caller of `acquire` resumes preserve this order, so
order statements about `completedOrder` are order statements about the
resolution of the returned promises.
-/

/-- One lock (and its promise): the captured `active` flag of the lock
handle and whether the promise has been resolved. -/
structure LockSt where
  active : Bool
  resolved : Bool
  deriving DecidableEq, Repr, Inhabited

/-- One `acquire` call: its owner tag (an opaque number; the source only
forwards it to the onAcquire/onRelease diagnostics callbacks) and the id of
the lock it returned once the body completed. -/
structure TaskSt where
  owner : Nat
  result : Option Nat
  deriving DecidableEq, Repr, Inhabited

/-- Global state: the `waiting` slot, the locks created so far (index =
id), the subscriber queue of each promise (parallel to `locks`), the
`acquire` tasks (index = task id), the event-loop microtask queue of task
ids, and two ghost logs: the order in which acquire bodies completed, and
the lock ids passed to `release()` calls, in call order. -/
structure MutexSt where
  waiting : Option Nat
  locks : List LockSt
  waiters : List (List Nat)
  tasks : List TaskSt
  microtasks : List Nat
  completedOrder : List Nat
  releaseCalls : List Nat
  deriving DecidableEq, Repr

def minit : MutexSt :=
  { waiting := none, locks := [], waiters := [], tasks := [], microtasks := [],
    completedOrder := [], releaseCalls := [] }

/-- Run one `while (waiting)` check of task `t` (one turn of the acquire
body).  If `waiting` is `undefined` the loop exits and the rest of the body
runs synchronously: `active = true`, the new promise is stored into
`waiting`, and the lock is returned (the body completes).  Otherwise the
body awaits the pending promise: the continuation subscribes to it. -/
def runCheck (s : MutexSt) (t : Nat) : MutexSt :=
  match s.waiting with
  | none =>
    let id := s.locks.length
    { s with
      waiting := some id
      locks := s.locks ++ [{ active := true, resolved := false }]
      waiters := s.waiters ++ [[]]
      tasks := setIdx s.tasks t (fun tk => { tk with result := some id })
      completedOrder := s.completedOrder ++ [t] }
  | some j =>
    { s with waiters := setIdx s.waiters j (fun w => w ++ [t]) }

/-- An `acquire(owner)` call: a new task is created and its body starts
running synchronously. -/
def doAcquire (s : MutexSt) (owner : Nat) : MutexSt :=
  runCheck { s with tasks := s.tasks ++ [{ owner := owner, result := none }] } s.tasks.length

/-- A `release()` call on the lock handle of lock `i` (only handles of
created locks exist).  The closure body always clears `waiting` and the
active flag; `resolve()` wakes the subscribers in subscription order the
first time it runs and is a no-op afterwards. -/
def doRelease (s : MutexSt) (i : Nat) : MutexSt :=
  if i < s.locks.length then
    let wasResolved := (s.locks.getD i default).resolved
    let s1 :=
      { s with
        waiting := none
        locks := setIdx s.locks i (fun l => { l with active := false })
        releaseCalls := s.releaseCalls ++ [i] }
    if wasResolved then s1
    else
      { s1 with
        locks := setIdx s1.locks i (fun l => { l with resolved := true })
        microtasks := s1.microtasks ++ s.waiters.getD i []
        waiters := setIdx s1.waiters i (fun _ => []) }
  else
    { s with releaseCalls := s.releaseCalls ++ [i] }

/-- The event loop dispatches the next microtask: the woken acquire
continuation re-runs its `while (waiting)` check. -/
def doMicro (s : MutexSt) : MutexSt :=
  match s.microtasks with
  | [] => s
  | t :: rest => runCheck { s with microtasks := rest } t

/-- External trace events: an `acquire(owner)` call, a `release()` call on
the handle of lock `i`, or the event loop running one microtask. -/
inductive MEvent where
  | acquire (owner : Nat)
  | release (i : Nat)
  | micro
  deriving DecidableEq, Repr

def mstep (s : MutexSt) : MEvent → MutexSt
  | .acquire owner => doAcquire s owner
  | .release i => doRelease s i
  | .micro => doMicro s

def mrun (s : MutexSt) (es : List MEvent) : MutexSt :=
  es.foldl mstep s

/-- The lock ids targeted by the release events of a trace, in order. -/
def releaseTargets (es : List MEvent) : List Nat :=
  es.filterMap fun e =>
    match e with
    | .release i => some i
    | _ => none

/-- A trace is well formed when every `release` event targets a lock that
exists at that point -- release is only reachable through the handle that
`acquire` returned, so a release of a never-created lock corresponds to no
program behavior. -/
def wfTrace (s : MutexSt) : List MEvent → Bool
  | [] => true
  | .acquire owner :: rest => wfTrace (mstep s (.acquire owner)) rest
  | .micro :: rest => wfTrace (mstep s .micro) rest
  | .release i :: rest =>
    decide (i < s.locks.length) && wfTrace (mstep s (.release i)) rest

/-- The invariant of the mutex state under single-release discipline:
a lock is active exactly while its promise is unresolved; the `waiting`
slot points at the unique unresolved lock when one exists, and when it is
empty every created lock has been resolved; resolution coincides with a
recorded release call. -/
def InvM (s : MutexSt) : Prop :=
  (∀ i, i < s.locks.length →
    ((s.locks.getD i default).active = true ↔ (s.locks.getD i default).resolved = false))
  ∧ (∀ j, s.waiting = some j →
      j < s.locks.length ∧ (s.locks.getD j default).resolved = false)
  ∧ (∀ j k, s.waiting = some j → k < s.locks.length → k ≠ j →
      (s.locks.getD k default).resolved = true)
  ∧ (s.waiting = none →
      ∀ k, k < s.locks.length → (s.locks.getD k default).resolved = true)
  ∧ (∀ k, k < s.locks.length → (s.locks.getD k default).resolved = true →
      k ∈ s.releaseCalls)
  ∧ (∀ k, k ∈ s.releaseCalls →
      k < s.locks.length ∧ (s.locks.getD k default).resolved = true)

/-- Apply `doMicro` `n` times. -/
def iterMicro : Nat → MutexSt → MutexSt
  | 0, s => s
  | n + 1, s => iterMicro n (doMicro s)

/-- Drive the mutex for `n` service rounds without interleaved acquire
calls: in each round the event loop drains the current microtask queue (the
first queued task acquires, the others re-subscribe to its promise) and the
new holder then releases. -/
def driveRounds : Nat → MutexSt → MutexSt
  | 0, s => s
  | n + 1, s =>
    driveRounds n (doRelease (iterMicro s.microtasks.length s) s.locks.length)

/-- A quiescent queue state: the mutex is free, the pending acquire
continuations sit in the microtask queue in service order `pend`, no
promise has leftover subscribers, and the subscriber table covers the
created locks. -/
def QShape (s : MutexSt) (pend : List Nat) : Prop :=
  s.waiting = none
  ∧ s.microtasks = pend
  ∧ (∀ w ∈ s.waiters, w = [])
  ∧ s.waiters.length = s.locks.length

end MutexM

/-!
Theorems.  First the supporting lemmas about the text utilities and
`setIdx`, then one theorem per specification claim (with a witness or
counterexample where required).
-/

namespace Text

theorem findFirst_spec (p : List Char → Bool) :
    ∀ cs i, findFirst p cs = some i →
      p (cs.drop i) = true ∧ ∀ j, j < i → p (cs.drop j) = false := by
  intro cs
  induction cs with
  | nil => intro i h; simp [findFirst] at h
  | cons c rest ih =>
    intro i h
    rw [findFirst] at h
    by_cases hm : p (c :: rest) = true
    · simp [hm] at h
      subst h
      exact ⟨hm, by omega⟩
    · simp [hm] at h
      obtain ⟨i', hi', rfl⟩ := h
      obtain ⟨h1, h2⟩ := ih i' hi'
      refine ⟨by simpa using h1, ?_⟩
      intro j hj
      cases j with
      | zero => simpa using (Bool.not_eq_true _).mp hm
      | succ j => simpa using h2 j (by omega)

theorem findFirst_none (p : List Char → Bool) (hp : p [] = false) :
    ∀ cs, findFirst p cs = none → ∀ j, p (cs.drop j) = false := by
  intro cs
  induction cs with
  | nil => intro _ j; simpa using hp
  | cons c rest ih =>
    intro h j
    rw [findFirst] at h
    by_cases hm : p (c :: rest) = true
    · simp [hm] at h
    · simp [hm] at h
      cases j with
      | zero => simpa using (Bool.not_eq_true _).mp hm
      | succ j => exact ih h j

/-- Inserting text into a document keeps the insertion contiguous: the result
of `insertBeforeFirst` always contains `ins` as a contiguous substring. -/
theorem insertBeforeFirst_infix (doc pat ins : List Char) :
    ins <:+: insertBeforeFirst doc pat ins := by
  unfold insertBeforeFirst
  cases h : findPat pat doc with
  | none => exact ⟨doc, [], by simp⟩
  | some i => exact ⟨doc.take i, doc.drop i, by simp⟩

/-- The HTML escape never introduces the ANSI escape character: beyond the
fixed entity strings, every output character occurs in the input. -/
theorem htmlEscape_esc_free (s : List Char) (h : Char.ofNat 27 ∉ s) :
    Char.ofNat 27 ∉ htmlEscape s := by
  intro hmem
  rw [htmlEscape, List.mem_flatten] at hmem
  obtain ⟨l, hl, hmeml⟩ := hmem
  rw [List.mem_map] at hl
  obtain ⟨c, hc, rfl⟩ := hl
  unfold htmlEscapeChar at hmeml
  split_ifs at hmeml with h1 h2 h3 h4 h5
  · revert hmeml; decide
  · revert hmeml; decide
  · revert hmeml; decide
  · revert hmeml; decide
  · revert hmeml; decide
  · simp at hmeml
    subst hmeml
    exact h hc

end Text

/-- C9: the liveness-probe middleware responds immediately with a
no-content status (204) and an empty body if and only if the request
Accept header equals the sentinel "text/x-vite-ping" (such a request never
reaches a later middleware), and it passes every other request through
untouched to the next handler. -/
theorem ping_middleware_spec (accept : Option (List Char)) :
    (Ping.middlewarePing accept = MwOutcome.respond 204 none none []
      ↔ accept = some Ping.pingAcceptHeader)
    ∧ (accept ≠ some Ping.pingAcceptHeader →
        Ping.middlewarePing accept = MwOutcome.next) := by
  unfold Ping.middlewarePing
  refine ⟨⟨fun h => ?_, fun h => by simp [h]⟩, fun h => by simp [h]⟩
  by_contra hne
  simp [hne] at h

theorem ping_middleware_spec_witness :
    Ping.middlewarePing (some "text/x-vite-ping".toList)
        = MwOutcome.respond 204 none none []
    ∧ Ping.middlewarePing (some "text/html".toList) = MwOutcome.next :=
  ⟨(ping_middleware_spec _).1.mpr rfl, (ping_middleware_spec _).2 (by decide)⟩

/-- C10: the coordinator-gate (delay) middleware invokes the downstream
continuation `next` exactly once, with no error argument, whether the
build promise resolves or rejects; no request is left permanently blocked
by a rejected build promise, and a missing build signal resolves
immediately (the `resolvedOk` case). -/
theorem delay_middleware_next_once (buildPromise : Delay.PromiseOutcome) :
    Delay.middlewareDelay buildPromise = [none] := by
  cases buildPromise <;> rfl

/-- C3: the build-error middleware passes the request through untouched
when no error is recorded; when an error is recorded it answers non-HTML
requests with a bare 500 and an empty body, and HTML-accepting requests
with an HTML page (status 500, Content-Type text/html, Content-Length the
byte length of the page) whose body contains the HTML-escaped error
message as rendered by the external ansi-html collaborator; the
collaborator returns ANSI-free text unchanged, so for an ANSI-free message
the body contains the HTML-escaped message itself. -/
theorem error_middleware_spec (template scriptTag : List Char)
    (ansiHtmlFn : List Char → List Char)
    (hAnsi : ∀ s : List Char, ErrorMw.escChar ∉ s → ansiHtmlFn s = s)
    (theError : Option (List Char)) (accept : Option (List Char)) :
    (theError = none →
      ErrorMw.middlewareError template scriptTag ansiHtmlFn theError accept
        = MwOutcome.next)
    ∧ (∀ msg, theError = some msg → Text.acceptIncludesHtml accept = false →
        ErrorMw.middlewareError template scriptTag ansiHtmlFn theError accept
          = MwOutcome.respond 500 none none [])
    ∧ (∀ msg, theError = some msg → Text.acceptIncludesHtml accept = true →
        ErrorMw.escChar ∉ msg →
        ∃ body,
          ErrorMw.middlewareError template scriptTag ansiHtmlFn theError accept
            = MwOutcome.respond 500 (some "text/html".toList)
                (some (Text.byteLen body)) body
          ∧ Text.htmlEscape msg <:+: body) := by
  refine ⟨fun h => by simp [ErrorMw.middlewareError, h], ?_, ?_⟩
  · intro msg hmsg hacc
    simp [ErrorMw.middlewareError, hmsg, hacc]
  · intro msg hmsg hacc hesc
    subst hmsg
    have hid : ansiHtmlFn (Text.htmlEscape msg) = Text.htmlEscape msg :=
      hAnsi _ (Text.htmlEscape_esc_free msg hesc)
    refine ⟨Text.insertBeforeFirst
        (Text.insertBeforeFirst template "</head>".toList scriptTag)
        "</body>".toList
        ("<pre class=\"error\"><code>".toList ++ ansiHtmlFn (Text.htmlEscape msg)
          ++ "</code></pre>\n".toList), ?_, ?_⟩
    · simp [ErrorMw.middlewareError, hacc]
    · refine List.IsInfix.trans ?_ (Text.insertBeforeFirst_infix _ _ _)
      rw [hid]
      exact ⟨"<pre class=\"error\"><code>".toList, "</code></pre>\n".toList, rfl⟩

theorem error_middleware_spec_witness :
    ∃ body,
      ErrorMw.middlewareError "<html><head></head><body></body></html>".toList
          "<script></script>".toList id (some "a<b".toList)
          (some "text/html".toList)
        = MwOutcome.respond 500 (some "text/html".toList)
            (some (Text.byteLen body)) body
      ∧ Text.htmlEscape "a<b".toList <:+: body :=
  (error_middleware_spec _ _ id (fun _ _ => rfl) _ _).2.2 _ rfl (by decide) (by decide)

/-- C2: for a fully buffered body containing a closing head, body or html
tag (case-insensitive), the interceptor finalize equals the input with the
client script tag spliced in immediately before the first such closing tag
-- the output is input-up-to-the-match, then exactly one script tag, then
the rest -- and the Content-Length header is set to the byte length of the
spliced output; the match index is the first position carrying a closing
tag. -/
theorem interceptor_injects (chunks : List (List Char)) (scriptTag : List Char)
    (i : Nat) (h : Inject.findCloseTag chunks.flatten = some i) :
    Inject.restoreFinalize chunks scriptTag
      = (chunks.flatten.take i ++ scriptTag ++ chunks.flatten.drop i,
         some (Text.byteLen
           (chunks.flatten.take i ++ scriptTag ++ chunks.flatten.drop i)))
    ∧ Inject.isCloseTagAt (chunks.flatten.drop i) = true
    ∧ ∀ j, j < i → Inject.isCloseTagAt (chunks.flatten.drop j) = false := by
  have hne : chunks.isEmpty = false := by
    cases hc : chunks.isEmpty
    · rfl
    · exfalso
      rw [List.isEmpty_iff] at hc
      subst hc
      simp [Inject.findCloseTag, Text.findFirst] at h
  obtain ⟨h1, h2⟩ := Text.findFirst_spec _ _ _ h
  refine ⟨?_, h1, h2⟩
  unfold Inject.restoreFinalize
  simp [hne, h]

theorem interceptor_injects_witness :
    Inject.findCloseTag "<html><body>hi</body></html>".toList = some 14
    ∧ Inject.restoreFinalize ["<html><body>hi".toList, "</body></html>".toList]
        "<script src=\"/x\"></script>\n".toList
      = ("<html><body>hi".toList ++ "<script src=\"/x\"></script>\n".toList
          ++ "</body></html>".toList,
         some (Text.byteLen ("<html><body>hi".toList
          ++ "<script src=\"/x\"></script>\n".toList ++ "</body></html>".toList))) := by
  have h : Inject.findCloseTag
      (["<html><body>hi".toList, "</body></html>".toList] : List (List Char)).flatten
      = some 14 := by decide
  refine ⟨by decide, ?_⟩
  have := (interceptor_injects ["<html><body>hi".toList, "</body></html>".toList]
    "<script src=\"/x\"></script>\n".toList 14 h).1
  rw [this]
  decide

/-- C7: for a fully buffered body containing no closing head, body or html
tag, the interceptor finalize is the identity: the output is byte-identical
to the buffered input, no script tag is injected and no Content-Length
header is written. -/
theorem interceptor_identity (chunks : List (List Char)) (scriptTag : List Char)
    (h : Inject.findCloseTag chunks.flatten = none) :
    Inject.restoreFinalize chunks scriptTag = (chunks.flatten, none)
    ∧ ∀ j, Inject.isCloseTagAt (chunks.flatten.drop j) = false := by
  refine ⟨?_, Text.findFirst_none _ (by decide) _ h⟩
  unfold Inject.restoreFinalize
  by_cases hc : chunks.isEmpty
  · rw [List.isEmpty_iff] at hc
    subst hc
    simp
  · simp only [Bool.not_eq_true] at hc
    simp [hc, h]

theorem setIdx_length {α : Type} (l : List α) (i : Nat) (f : α → α) :
    (setIdx l i f).length = l.length := by
  induction l generalizing i with
  | nil => rfl
  | cons a rest ih =>
    cases i with
    | zero => rfl
    | succ n => simp [setIdx, ih]

theorem getD_setIdx_eq {α : Type} (l : List α) (i : Nat) (f : α → α) (d : α)
    (h : i < l.length) :
    (setIdx l i f).getD i d = f (l.getD i d) := by
  induction l generalizing i with
  | nil => simp at h
  | cons a rest ih =>
    cases i with
    | zero => rfl
    | succ n => exact ih n (by simpa using h)

theorem setIdx_setIdx {α : Type} (l : List α) (i : Nat) (f g : α → α) :
    setIdx (setIdx l i f) i g = setIdx l i (fun x => g (f x)) := by
  induction l generalizing i with
  | nil => rfl
  | cons a rest ih =>
    cases i with
    | zero => rfl
    | succ n => simp [setIdx, ih]

theorem setIdx_of_fix {α : Type} (l : List α) (i : Nat) (f : α → α) (d : α)
    (h : f (l.getD i d) = l.getD i d) : setIdx l i f = l := by
  induction l generalizing i with
  | nil => rfl
  | cons a rest ih =>
    cases i with
    | zero => simpa [setIdx] using h
    | succ n => simp [setIdx, ih n (by simpa using h)]

theorem mem_setIdx {α : Type} (l : List α) (i : Nat) (f : α → α) (w : α)
    (h : w ∈ setIdx l i f) : w ∈ l ∨ ∃ v ∈ l, w = f v := by
  induction l generalizing i with
  | nil => simp [setIdx] at h
  | cons a rest ih =>
    cases i with
    | zero =>
      rw [setIdx] at h
      rcases List.mem_cons.mp h with h | h
      · exact Or.inr ⟨a, List.mem_cons_self a rest, h⟩
      · exact Or.inl (List.mem_cons_of_mem a h)
    | succ n =>
      rw [setIdx] at h
      rcases List.mem_cons.mp h with h | h
      · exact Or.inl (h ▸ List.mem_cons_self a rest)
      · rcases ih n h with h | ⟨v, hv, hw⟩
        · exact Or.inl (List.mem_cons_of_mem a h)
        · exact Or.inr ⟨v, List.mem_cons_of_mem a hv, hw⟩

theorem getD_snoc_lt {α : Type} (l : List α) (a : α) (k : Nat) (d : α)
    (h : k < l.length) : (l ++ [a]).getD k d = l.getD k d := by
  induction l generalizing k with
  | nil => simp at h
  | cons b rest ih =>
    cases k with
    | zero => rfl
    | succ n => exact ih n (by simpa using h)

theorem getD_snoc_eq {α : Type} (l : List α) (a : α) (d : α) :
    (l ++ [a]).getD l.length d = a := by
  induction l with
  | nil => rfl
  | cons b rest ih => simp [ih]

theorem getD_setIdx_ne {α : Type} (l : List α) (i j : Nat) (f : α → α) (d : α)
    (h : j ≠ i) : (setIdx l i f).getD j d = l.getD j d := by
  induction l generalizing i j with
  | nil => rfl
  | cons a rest ih =>
    cases i with
    | zero =>
      cases j with
      | zero => exact absurd rfl h
      | succ m => rfl
    | succ n =>
      cases j with
      | zero => rfl
      | succ m => exact ih n m (by omega)

namespace Coord

theorem coordStep_inv (s : CoordState) (e : CoordEvent)
    (h : s.timerArmed = true → s.requestCount = 0) :
    (coordStep s e).timerArmed = true → (coordStep s e).requestCount = 0 := by
  cases e with
  | start => simp [coordStep]
  | finish =>
    by_cases hrc : s.requestCount - 1 = 0
    · simp [coordStep, hrc]
    · intro ha2
      have harm : s.timerArmed = true := by
        have heq : (coordStep s .finish).timerArmed = s.timerArmed := by
          simp [coordStep, hrc]
        rw [← heq]
        exact ha2
      exact absurd (by have := h harm; omega : s.requestCount - 1 = 0) hrc
  | fire =>
    by_cases ha : s.timerArmed = true
    · simp [coordStep, ha]
    · simp only [Bool.not_eq_true] at ha
      simp [coordStep, ha]

theorem coordRun_inv (es : List CoordEvent) :
    ∀ s : CoordState, (s.timerArmed = true → s.requestCount = 0) →
      (coordRun s es).timerArmed = true → (coordRun s es).requestCount = 0 := by
  induction es with
  | nil => intro s h; exact h
  | cons e rest ih =>
    intro s h
    exact ih (coordStep s e) (coordStep_inv s e h)

theorem coordRun_finishes (n : Nat) :
    ∀ s : CoordState, s.requestCount = n → 1 ≤ n →
      coordRun s (List.replicate n CoordEvent.finish)
        = { s with requestCount := 0, timerArmed := true } := by
  induction n with
  | zero => intro s _ h; omega
  | succ n ih =>
    intro s hc hn
    rw [List.replicate_succ]
    show coordRun (coordStep s .finish) (List.replicate n CoordEvent.finish)
      = { s with requestCount := 0, timerArmed := true }
    cases n with
    | zero =>
      have : coordStep s .finish = { s with requestCount := 0, timerArmed := true } := by
        simp [coordStep, hc]
      rw [this]
      rfl
    | succ m =>
      have hstep : coordStep s .finish = { s with requestCount := m + 1 } := by
        simp [coordStep, hc]
      rw [hstep]
      exact ih _ rfl (by omega)

end Coord

/-- C5: the build-paused (deferToRequests) signal is resolved only when the
in-flight request count is zero and the armed settle timer fires: along any
trace, an armed timer forces a zero request count, and any step that changes
the resolution count is a `fire` at count zero with the timer armed,
incrementing it by exactly one.  N completions of the in-flight requests
with no timer expiry between them, followed by one uncontested expiry,
resolve the signal exactly once (the completions alone resolve nothing);
and a request arriving before the timer fires cancels the pending
resolution: after `start`, a `fire` changes nothing. -/
theorem coordinator_debounce_spec :
    (∀ es, (Coord.coordRun Coord.coordInit es).timerArmed = true →
      (Coord.coordRun Coord.coordInit es).requestCount = 0)
    ∧ (∀ es e,
        (Coord.coordStep (Coord.coordRun Coord.coordInit es) e).resolveCount
          ≠ (Coord.coordRun Coord.coordInit es).resolveCount →
        e = Coord.CoordEvent.fire
        ∧ (Coord.coordRun Coord.coordInit es).requestCount = 0
        ∧ (Coord.coordRun Coord.coordInit es).timerArmed = true
        ∧ (Coord.coordStep (Coord.coordRun Coord.coordInit es) e).resolveCount
            = (Coord.coordRun Coord.coordInit es).resolveCount + 1)
    ∧ (∀ (s : Coord.CoordState) (n : Nat), 1 ≤ n → s.requestCount = n →
        s.signalPending = true →
        (Coord.coordRun s (List.replicate n Coord.CoordEvent.finish)).resolveCount
          = s.resolveCount
        ∧ (Coord.coordRun s (List.replicate n Coord.CoordEvent.finish
            ++ [Coord.CoordEvent.fire])).resolveCount = s.resolveCount + 1)
    ∧ (∀ s : Coord.CoordState,
        (Coord.coordRun s [Coord.CoordEvent.start, Coord.CoordEvent.fire]).resolveCount
          = s.resolveCount) := by
  have hinv : ∀ es, (Coord.coordRun Coord.coordInit es).timerArmed = true →
      (Coord.coordRun Coord.coordInit es).requestCount = 0 :=
    fun es => Coord.coordRun_inv es Coord.coordInit (by intro h; rfl)
  refine ⟨hinv, ?_, ?_, ?_⟩
  · intro es e hne
    set s := Coord.coordRun Coord.coordInit es with hs
    cases e with
    | start => exact absurd rfl hne
    | finish =>
      exfalso
      apply hne
      by_cases hrc : s.requestCount - 1 = 0 <;> simp [Coord.coordStep, hrc]
    | fire =>
      by_cases ha : s.timerArmed = true
      · by_cases hp : s.signalPending = true
        · exact ⟨rfl, hinv es ha, ha, by simp [Coord.coordStep, ha, hp]⟩
        · exfalso
          apply hne
          simp only [Bool.not_eq_true] at hp
          simp [Coord.coordStep, ha, hp]
      · exfalso
        apply hne
        simp only [Bool.not_eq_true] at ha
        simp [Coord.coordStep, ha]
  · intro s n hn hc hp
    have hfin := Coord.coordRun_finishes n s hc hn
    constructor
    · rw [hfin]
    · rw [Coord.coordRun, List.foldl_append, ← Coord.coordRun, ← Coord.coordRun, hfin]
      simp [Coord.coordRun, Coord.coordStep, hp]
  · intro s
    simp [Coord.coordRun, Coord.coordStep]

theorem coordinator_debounce_spec_witness :
    (Coord.coordRun
        { requestCount := 2, signalPending := true, timerArmed := false, resolveCount := 0 }
        (List.replicate 2 Coord.CoordEvent.finish
          ++ [Coord.CoordEvent.fire])).resolveCount = 0 + 1 :=
  (coordinator_debounce_spec.2.2.1
    { requestCount := 2, signalPending := true, timerArmed := false, resolveCount := 0 }
    2 (by decide) rfl rfl).2

namespace Reload

theorem reloadRun_rearm (k : Nat) :
    ∀ s : ReloadState, 1 ≤ k →
      reloadRun true s (List.replicate k ReloadEvent.closeBundle)
        = { s with timerArmed := true } := by
  induction k with
  | zero => intro s h; omega
  | succ k ih =>
    intro s _
    rw [List.replicate_succ]
    show reloadRun true (reloadStep true s .closeBundle)
        (List.replicate k ReloadEvent.closeBundle) = { s with timerArmed := true }
    have hstep : reloadStep true s .closeBundle = { s with timerArmed := true } := by
      simp [reloadStep]
    rw [hstep]
    cases k with
    | zero => rfl
    | succ m => exact ih _ (by omega)

theorem reloadStep_sent_inv (enabled : Bool) (s : ReloadState) (e : ReloadEvent)
    (h : ∀ m ∈ s.sent, m.2 = pageReloadJson) :
    ∀ m ∈ (reloadStep enabled s e).sent, m.2 = pageReloadJson := by
  cases e with
  | closeBundle =>
    by_cases he : enabled = true <;> simp [reloadStep, he] <;> exact fun a b hm => h _ hm
  | fire =>
    by_cases ha : s.timerArmed = true
    · simp only [reloadStep, ha, if_pos]
      intro m hm
      rw [List.mem_append] at hm
      rcases hm with hm | hm
      · exact h m hm
      · rw [List.mem_map] at hm
        obtain ⟨sk, _, rfl⟩ := hm
        rfl
    · simp only [Bool.not_eq_true] at ha
      simp only [reloadStep, ha]
      exact h
  | connect sk => exact h
  | disconnect sk => exact h

end Reload

/-- C6: with the preview server running and reload enabled, bundle-closed
events drive a debounced broadcast: K consecutive bundle-closed events
leave exactly one armed timer (the state changes only by arming it), and
when that timer then fires, every currently-registered socket is sent
exactly one message, the JSON encoding of the page-reload object -- one
broadcast per socket for the whole burst, not K.  Moreover, along every
trace (enabled or not), every message ever sent on the push channel is
that same JSON text: no other message type exists. -/
theorem reload_broadcast_spec :
    (∀ (s : Reload.ReloadState) (k : Nat), 1 ≤ k →
      Reload.reloadRun true s (List.replicate k Reload.ReloadEvent.closeBundle)
        = { s with timerArmed := true }
      ∧ (Reload.reloadRun true s (List.replicate k Reload.ReloadEvent.closeBundle
          ++ [Reload.ReloadEvent.fire])).sent
        = s.sent ++ s.sockets.map (fun sk => (sk, Reload.pageReloadJson)))
    ∧ (∀ (enabled : Bool) (es : List Reload.ReloadEvent),
        ∀ m ∈ (Reload.reloadRun enabled Reload.reloadInit es).sent,
          m.2 = Reload.pageReloadJson) := by
  constructor
  · intro s k hk
    have harm := Reload.reloadRun_rearm k s hk
    refine ⟨harm, ?_⟩
    rw [Reload.reloadRun, List.foldl_append, ← Reload.reloadRun, ← Reload.reloadRun, harm]
    simp [Reload.reloadRun, Reload.reloadStep]
  · intro enabled es
    have : ∀ (l : List Reload.ReloadEvent) (s : Reload.ReloadState),
        (∀ m ∈ s.sent, m.2 = Reload.pageReloadJson) →
        ∀ m ∈ (Reload.reloadRun enabled s l).sent, m.2 = Reload.pageReloadJson := by
      intro l
      induction l with
      | nil => intro s h; exact h
      | cons e rest ih =>
        intro s h
        exact ih _ (Reload.reloadStep_sent_inv enabled s e h)
    exact this es Reload.reloadInit (by intro m hm; simp [Reload.reloadInit] at hm)

theorem reload_broadcast_spec_witness :
    (Reload.reloadRun true
        { timerArmed := false, sockets := [5, 7], sent := [] }
        (List.replicate 3 Reload.ReloadEvent.closeBundle
          ++ [Reload.ReloadEvent.fire])).sent
      = [] ++ [5, 7].map (fun sk => (sk, Reload.pageReloadJson)) :=
  (reload_broadcast_spec.1 { timerArmed := false, sockets := [5, 7], sent := [] }
    3 (by decide)).2

namespace MutexM

theorem InvM_congr (s s' : MutexSt) (hw : s'.waiting = s.waiting)
    (hl : s'.locks = s.locks) (hr : s'.releaseCalls = s.releaseCalls)
    (h : InvM s) : InvM s' := by
  unfold InvM at h ⊢
  rw [hw, hl, hr]
  exact h

theorem runCheck_inv (s : MutexSt) (t : Nat) (h : InvM s) : InvM (runCheck s t) := by
  obtain ⟨h1, h2, h3, h4, h5, h6⟩ := h
  cases hw : s.waiting with
  | some j =>
    simp only [runCheck, hw]
    exact InvM_congr s _ (by rw [hw]) rfl rfl ⟨h1, h2, h3, h4, h5, h6⟩
  | none =>
    simp only [runCheck, hw]
    refine ⟨?_, ?_, ?_, ?_, ?_, ?_⟩
    · intro i hi
      simp only [List.length_append, List.length_cons, List.length_nil] at hi
      by_cases hiL : i < s.locks.length
      · rw [getD_snoc_lt _ _ _ _ hiL]
        exact h1 i hiL
      · have : i = s.locks.length := by omega
        subst this
        rw [getD_snoc_eq]
        simp
    · intro j hj
      simp only [Option.some.injEq] at hj
      subst hj
      refine ⟨by simp, ?_⟩
      rw [getD_snoc_eq]
    · intro j k hj hk hkj
      simp only [Option.some.injEq] at hj
      subst hj
      simp only [List.length_append, List.length_cons, List.length_nil] at hk
      have hkL : k < s.locks.length := by omega
      rw [getD_snoc_lt _ _ _ _ hkL]
      exact h4 hw k hkL
    · intro hnone
      simp at hnone
    · intro k hk hres
      simp only [List.length_append, List.length_cons, List.length_nil] at hk
      by_cases hkL : k < s.locks.length
      · rw [getD_snoc_lt _ _ _ _ hkL] at hres
        exact h5 k hkL hres
      · have : k = s.locks.length := by omega
        subst this
        rw [getD_snoc_eq] at hres
        simp at hres
    · intro k hk
      obtain ⟨hk1, hk2⟩ := h6 k hk
      refine ⟨by simp; omega, ?_⟩
      rw [getD_snoc_lt _ _ _ _ hk1]
      exact hk2

theorem doRelease_inv (s : MutexSt) (i : Nat) (h : InvM s)
    (hlt : i < s.locks.length) (hfresh : i ∉ s.releaseCalls) : InvM (doRelease s i) := by
  obtain ⟨h1, h2, h3, h4, h5, h6⟩ := h
  have hres : (s.locks.getD i default).resolved = false := by
    cases hr : (s.locks.getD i default).resolved
    · rfl
    · exact absurd (h5 i hlt hr) hfresh
  have hwait : s.waiting = some i := by
    cases hw : s.waiting with
    | none => exact absurd (h4 hw i hlt) (by rw [hres]; exact Bool.false_ne_true)
    | some j' =>
      by_cases hij : i = j'
      · rw [hij]
      · exact absurd (h3 j' i hw hlt hij) (by rw [hres]; exact Bool.false_ne_true)
  simp only [doRelease, if_pos hlt, hres, Bool.false_eq_true, if_false, setIdx_setIdx]
  refine ⟨?_, ?_, ?_, ?_, ?_, ?_⟩
  · intro k hk
    simp only [setIdx_length] at hk
    by_cases hki : k = i
    · subst hki
      rw [getD_setIdx_eq _ _ _ _ hk]
      simp
    · rw [getD_setIdx_ne _ _ _ _ _ hki]
      exact h1 k hk
  · intro j hj
    simp at hj
  · intro j k hj
    simp at hj
  · intro _ k hk
    simp only [setIdx_length] at hk
    by_cases hki : k = i
    · subst hki
      rw [getD_setIdx_eq _ _ _ _ hk]
    · rw [getD_setIdx_ne _ _ _ _ _ hki]
      exact h3 i k hwait hk hki
  · intro k hk hkres
    simp only [setIdx_length] at hk
    by_cases hki : k = i
    · subst hki
      exact List.mem_append_right _ (List.mem_singleton.mpr rfl)
    · rw [getD_setIdx_ne _ _ _ _ _ hki] at hkres
      exact List.mem_append_left _ (h5 k hk hkres)
  · intro k hk
    rcases List.mem_append.mp hk with hk | hk
    · have hki : k ≠ i := fun heq => hfresh (heq ▸ hk)
      obtain ⟨hk1, hk2⟩ := h6 k hk
      rw [setIdx_length, getD_setIdx_ne _ _ _ _ _ hki]
      exact ⟨hk1, hk2⟩
    · rw [List.mem_singleton] at hk
      subst hk
      rw [setIdx_length, getD_setIdx_eq _ _ _ _ hlt]
      exact ⟨hlt, rfl⟩

theorem doMicro_inv (s : MutexSt) (h : InvM s) : InvM (doMicro s) := by
  cases hm : s.microtasks with
  | nil => simpa [doMicro, hm] using h
  | cons t rest =>
    simp only [doMicro, hm]
    exact runCheck_inv _ t h

theorem mstep_releaseCalls (s : MutexSt) (e : MEvent) :
    (mstep s e).releaseCalls = s.releaseCalls ++ releaseTargets [e] := by
  cases e with
  | acquire o =>
    cases hw : s.waiting with
    | none => simp [mstep, doAcquire, runCheck, hw, releaseTargets]
    | some j => simp [mstep, doAcquire, runCheck, hw, releaseTargets]
  | release i =>
    by_cases hlt : i < s.locks.length
    · simp only [mstep, doRelease, if_pos hlt]
      split <;> simp [releaseTargets]
    · simp [mstep, doRelease, hlt, releaseTargets]
  | micro =>
    cases hm : s.microtasks with
    | nil => simp [mstep, doMicro, hm, releaseTargets]
    | cons t rest =>
      cases hw : s.waiting with
      | none => simp [mstep, doMicro, hm, runCheck, hw, releaseTargets]
      | some j => simp [mstep, doMicro, hm, runCheck, hw, releaseTargets]

theorem mrun_releaseCalls :
    ∀ (es : List MEvent) (s : MutexSt),
      (mrun s es).releaseCalls = s.releaseCalls ++ releaseTargets es := by
  intro es
  induction es with
  | nil => intro s; simp [mrun, releaseTargets]
  | cons e rest ih =>
    intro s
    show (mrun (mstep s e) rest).releaseCalls = _
    rw [ih, mstep_releaseCalls]
    cases e <;> simp [releaseTargets]

theorem InvM_mrun :
    ∀ (es : List MEvent) (s : MutexSt), InvM s → wfTrace s es = true →
      (s.releaseCalls ++ releaseTargets es).Nodup → InvM (mrun s es) := by
  intro es
  induction es with
  | nil => intro s h _ _; exact h
  | cons e rest ih =>
    intro s h hwf hnd
    cases e with
    | acquire o =>
      rw [wfTrace] at hwf
      refine ih _ (runCheck_inv _ _ h) hwf ?_
      rw [mstep_releaseCalls]
      simpa [releaseTargets] using hnd
    | micro =>
      rw [wfTrace] at hwf
      refine ih _ (doMicro_inv s h) hwf ?_
      rw [mstep_releaseCalls]
      simpa [releaseTargets] using hnd
    | release i =>
      rw [wfTrace, Bool.and_eq_true] at hwf
      obtain ⟨hg, hwf'⟩ := hwf
      have hlt : i < s.locks.length := by simpa using hg
      have hfresh : i ∉ s.releaseCalls := by
        simp only [releaseTargets, List.filterMap_cons] at hnd
        rw [List.nodup_append] at hnd
        intro hi
        exact hnd.2.2 hi (List.mem_cons_self _ _)
      refine ih _ (doRelease_inv s i h hlt hfresh) hwf' ?_
      rw [mstep_releaseCalls]
      simp only [releaseTargets, List.filterMap_cons] at hnd ⊢
      simpa [List.append_assoc] using hnd

end MutexM

/-- C1: along any well-formed trace of interleaved acquire calls, release
calls (each acquired lock released at most once) and event-loop turns, at
most one lock is active at any instant -- any two active locks coincide --
and every active lock is one whose release() has not yet run: a second
acquire therefore cannot have resolved while the current holder is still
active. -/
theorem mutex_mutual_exclusion (es : List MutexM.MEvent)
    (hwf : MutexM.wfTrace MutexM.minit es = true)
    (hnd : (MutexM.releaseTargets es).Nodup) :
    (∀ i j,
        i < (MutexM.mrun MutexM.minit es).locks.length →
        j < (MutexM.mrun MutexM.minit es).locks.length →
        ((MutexM.mrun MutexM.minit es).locks.getD i default).active = true →
        ((MutexM.mrun MutexM.minit es).locks.getD j default).active = true →
        i = j)
    ∧ (∀ i, i < (MutexM.mrun MutexM.minit es).locks.length →
        ((MutexM.mrun MutexM.minit es).locks.getD i default).active = true →
        i ∉ MutexM.releaseTargets es) := by
  have hInvInit : MutexM.InvM MutexM.minit := by
    unfold MutexM.InvM MutexM.minit
    refine ⟨?_, ?_, ?_, ?_, ?_, ?_⟩ <;> intros <;> simp_all
  have hinv := MutexM.InvM_mrun es MutexM.minit hInvInit hwf
    (by simpa [MutexM.minit] using hnd)
  obtain ⟨h1, h2, h3, h4, h5, h6⟩ := hinv
  have hghost : (MutexM.mrun MutexM.minit es).releaseCalls = MutexM.releaseTargets es := by
    simpa [MutexM.minit] using MutexM.mrun_releaseCalls es MutexM.minit
  constructor
  · intro i j hi hj hai haj
    have hri := (h1 i hi).mp hai
    have hrj := (h1 j hj).mp haj
    cases hw : (MutexM.mrun MutexM.minit es).waiting with
    | none => exact absurd (h4 hw i hi) (by rw [hri]; exact Bool.false_ne_true)
    | some w =>
      by_cases hiw : i = w
      · by_cases hjw : j = w
        · rw [hiw, hjw]
        · exact absurd (h3 w j hw hj hjw) (by rw [hrj]; exact Bool.false_ne_true)
      · exact absurd (h3 w i hw hi hiw) (by rw [hri]; exact Bool.false_ne_true)
  · intro i hi hai hmem
    rw [← hghost] at hmem
    exact absurd (h6 i hmem).2
      (by rw [(h1 i hi).mp hai]; exact Bool.false_ne_true)

theorem mutex_mutual_exclusion_witness :
    1 ∉ MutexM.releaseTargets
        [MutexM.MEvent.acquire 0, MutexM.MEvent.acquire 1,
         MutexM.MEvent.release 0, MutexM.MEvent.micro] :=
  (mutex_mutual_exclusion
      [MutexM.MEvent.acquire 0, MutexM.MEvent.acquire 1,
       MutexM.MEvent.release 0, MutexM.MEvent.micro]
      (by decide) (by decide)).2 1 (by decide) (by decide)

/-- C4 counterexample: release() on a mutex lock is not idempotent.  In the
trace acquire, release, acquire, stale second release, acquire: before the
stale release the promise of the second holder occupies the waiting slot; the
stale release clears it (a state change, so not a no-op); and the third
acquire then completes immediately, leaving locks 1 and 2 active at once --
the exclusion of the new holder is destroyed rather than left intact. -/
theorem mutex_release_not_idempotent_cex :
    ((MutexM.mrun MutexM.minit
        [MutexM.MEvent.acquire 0, MutexM.MEvent.release 0,
         MutexM.MEvent.acquire 1]).waiting = some 1)
    ∧ ((MutexM.mrun MutexM.minit
        [MutexM.MEvent.acquire 0, MutexM.MEvent.release 0,
         MutexM.MEvent.acquire 1, MutexM.MEvent.release 0]).waiting = none)
    ∧ (((MutexM.mrun MutexM.minit
        [MutexM.MEvent.acquire 0, MutexM.MEvent.release 0,
         MutexM.MEvent.acquire 1, MutexM.MEvent.release 0,
         MutexM.MEvent.acquire 2]).locks.getD 1 default).active = true)
    ∧ (((MutexM.mrun MutexM.minit
        [MutexM.MEvent.acquire 0, MutexM.MEvent.release 0,
         MutexM.MEvent.acquire 1, MutexM.MEvent.release 0,
         MutexM.MEvent.acquire 2]).locks.getD 2 default).active = true)
    ∧ (((MutexM.mrun MutexM.minit
        [MutexM.MEvent.acquire 0, MutexM.MEvent.release 0,
         MutexM.MEvent.acquire 1, MutexM.MEvent.release 0,
         MutexM.MEvent.acquire 2]).tasks.getD 2 default).result = some 2) := by
  decide

/-- C4 amended: a second release() of an already-released lock is a no-op on
the lock itself and on the queues -- the lock flags, waiter queues, tasks,
microtask queue and completion log are unchanged and nobody is re-woken --
but it unconditionally clears the mutex waiting slot (and appends to the
release log).  Hence it is a full no-op only while no new acquisition has
happened since; performed after another caller has acquired, it empties the
slot that holds the promise of the new holder, and a subsequent acquire resolves
immediately alongside the new holder (the counterexample), instead of
leaving the exclusion of the new holder intact. -/
theorem mutex_stale_release_amended (s : MutexM.MutexSt) (i : Nat)
    (hlt : i < s.locks.length)
    (hres : (s.locks.getD i default).resolved = true)
    (hact : (s.locks.getD i default).active = false) :
    MutexM.doRelease s i
      = { s with waiting := none, releaseCalls := s.releaseCalls ++ [i] } := by
  have hfix : (fun l => { l with active := false }) (s.locks.getD i default)
      = s.locks.getD i default := by
    cases hL : s.locks.getD i default with
    | mk a r =>
      rw [hL] at hact
      simp only at hact
      subst hact
      rfl
  have hset : setIdx s.locks i (fun l => { l with active := false }) = s.locks :=
    setIdx_of_fix _ _ _ default hfix
  simp only [MutexM.doRelease, if_pos hlt, hres, if_true, hset]

theorem mutex_stale_release_amended_witness :
    MutexM.doRelease
        (MutexM.mrun MutexM.minit
          [MutexM.MEvent.acquire 0, MutexM.MEvent.release 0]) 0
      = { (MutexM.mrun MutexM.minit
            [MutexM.MEvent.acquire 0, MutexM.MEvent.release 0]) with
          waiting := none,
          releaseCalls :=
            (MutexM.mrun MutexM.minit
              [MutexM.MEvent.acquire 0, MutexM.MEvent.release 0]).releaseCalls
              ++ [0] } :=
  mutex_stale_release_amended _ 0 (by decide) (by decide) (by decide)

/-- C8 counterexample: acquisitions do not resolve in FIFO arrival order.
In the trace below, the second acquire (task 1) starts waiting -- it is
subscribed to the promise of the holder -- while only two acquire calls exist;
the third acquire (task 2) is made later, in the window after the release by
the holder but before the woken continuation of task 1 runs, finds the slot empty
and completes immediately.  The completion order is [0, 2, 1]: task 2
resolves before the earlier-waiting task 1. -/
theorem mutex_fifo_cex :
    ((MutexM.mrun MutexM.minit
        [MutexM.MEvent.acquire 0, MutexM.MEvent.acquire 1]).waiters.getD 0 [] = [1])
    ∧ ((MutexM.mrun MutexM.minit
        [MutexM.MEvent.acquire 0, MutexM.MEvent.acquire 1]).tasks.length = 2)
    ∧ ((MutexM.mrun MutexM.minit
        [MutexM.MEvent.acquire 0, MutexM.MEvent.acquire 1, MutexM.MEvent.release 0,
         MutexM.MEvent.acquire 2, MutexM.MEvent.micro, MutexM.MEvent.release 1,
         MutexM.MEvent.micro]).completedOrder = [0, 2, 1]) := by
  decide

namespace MutexM

theorem iterMicro_subscribe :
    ∀ (us : List Nat) (w0 : List (List Nat)) (L : Nat)
      (locks0 : List LockSt) (tasks0 : List TaskSt)
      (comp0 rel0 : List Nat),
      L < w0.length →
      iterMicro us.length
          ⟨some L, locks0, w0, tasks0, us, comp0, rel0⟩
        = ⟨some L, locks0, setIdx w0 L (fun w => w ++ us), tasks0, [], comp0, rel0⟩ := by
  intro us
  induction us with
  | nil =>
    intro w0 L locks0 tasks0 comp0 rel0 hlen
    show (⟨some L, locks0, w0, tasks0, [], comp0, rel0⟩ : MutexSt) = _
    rw [setIdx_of_fix _ _ _ [] (by simp)]
  | cons u us' ih =>
    intro w0 L locks0 tasks0 comp0 rel0 hlen
    show iterMicro us'.length
        ⟨some L, locks0, setIdx w0 L (fun w => w ++ [u]), tasks0, us', comp0, rel0⟩ = _
    rw [ih _ L _ _ _ _ (by rw [setIdx_length]; exact hlen)]
    rw [setIdx_setIdx]
    have hfun : (fun w : List Nat => (w ++ [u]) ++ us')
        = (fun w : List Nat => w ++ (u :: us')) := by
      funext w
      simp
    rw [hfun]

theorem driveRounds_fifo :
    ∀ (pend : List Nat) (s : MutexSt), QShape s pend →
      (driveRounds pend.length s).completedOrder = s.completedOrder ++ pend := by
  intro pend
  induction pend with
  | nil =>
    intro s _
    simp [driveRounds]
  | cons t ts ih =>
    intro s hsh
    obtain ⟨w0, locks0, waiters0, tasks0, micro0, comp0, rel0⟩ := s
    obtain ⟨hw, hm, hwemp, hlen⟩ := hsh
    replace hw : w0 = none := hw
    replace hm : micro0 = t :: ts := hm
    replace hwemp : ∀ w ∈ waiters0, w = [] := hwemp
    replace hlen : waiters0.length = locks0.length := hlen
    subst hw hm
    show (driveRounds ts.length
        (doRelease
          (iterMicro (t :: ts).length
            ⟨none, locks0, waiters0, tasks0, t :: ts, comp0, rel0⟩)
          locks0.length)).completedOrder = comp0 ++ (t :: ts)
    have hiter : iterMicro (t :: ts).length
        ⟨none, locks0, waiters0, tasks0, t :: ts, comp0, rel0⟩
        = ⟨some locks0.length,
            locks0 ++ [{ active := true, resolved := false }],
            setIdx (waiters0 ++ [[]]) locks0.length (fun w => w ++ ts),
            setIdx tasks0 t (fun tk => { tk with result := some locks0.length }),
            [], comp0 ++ [t], rel0⟩ := by
      show iterMicro ts.length
          ⟨some locks0.length, locks0 ++ [{ active := true, resolved := false }],
            waiters0 ++ [[]],
            setIdx tasks0 t (fun tk => { tk with result := some locks0.length }),
            ts, comp0 ++ [t], rel0⟩ = _
      rw [iterMicro_subscribe ts _ locks0.length _ _ _ _
        (by simp only [List.length_append, List.length_cons, List.length_nil]; omega)]
    rw [hiter]
    have hgw : (setIdx (waiters0 ++ [[]]) locks0.length
          (fun w => w ++ ts)).getD locks0.length []
        = ts := by
      rw [← hlen]
      rw [getD_setIdx_eq _ _ _ _ (by simp)]
      rw [getD_snoc_eq]
      simp
    have hrel : doRelease
        ⟨some locks0.length,
          locks0 ++ [{ active := true, resolved := false }],
          setIdx (waiters0 ++ [[]]) locks0.length (fun w => w ++ ts),
          setIdx tasks0 t (fun tk => { tk with result := some locks0.length }),
          [], comp0 ++ [t], rel0⟩ locks0.length
        = ⟨none,
            setIdx (locks0 ++ [{ active := true, resolved := false }]) locks0.length
              (fun l => { active := false, resolved := true }),
            setIdx (waiters0 ++ [[]]) locks0.length (fun w => []),
            setIdx tasks0 t (fun tk => { tk with result := some locks0.length }),
            ts, comp0 ++ [t], rel0 ++ [locks0.length]⟩ := by
      simp only [doRelease, getD_snoc_eq]
      rw [if_pos (by simp : locks0.length
        < (locks0 ++ [({ active := true, resolved := false } : LockSt)]).length)]
      simp only [Bool.false_eq_true, if_false, setIdx_setIdx, hgw, List.nil_append]
    rw [hrel]
    rw [ih _ ?_]
    · simp
    · refine ⟨rfl, rfl, ?_, ?_⟩
      · intro w hwmem
        rcases mem_setIdx _ _ _ _ hwmem with hmem | ⟨v, _, hv⟩
        · rcases List.mem_append.mp hmem with hmem | hmem
          · exact hwemp w hmem
          · simpa using hmem
        · exact hv
      · simp only [setIdx_length, List.length_append, List.length_cons, List.length_nil]
        omega

end MutexM

/-- C8 amended: FIFO holds only in the absence of barging.  Acquire calls
that are waiting together in the woken queue are served in queue order: from
any quiescent state in which the mutex slot is empty and the pending acquire
continuations sit in the microtask queue, driving the loop -- each round
drains the microtask queue (the head task acquires, the others re-subscribe
to its promise in queue order) and the new holder then releases, with no new
acquire calls interleaved -- completes the pending acquisitions exactly in
queue order.  Global FIFO by arrival time does not hold: an acquire call
arriving between a release and the resumption of the earlier-woken waiters
acquires immediately, overtaking them (see the counterexample). -/
theorem mutex_fifo_amended (pend : List Nat) (s : MutexM.MutexSt)
    (h : MutexM.QShape s pend) :
    (MutexM.driveRounds pend.length s).completedOrder
      = s.completedOrder ++ pend :=
  MutexM.driveRounds_fifo pend s h

theorem mutex_fifo_amended_witness :
    (MutexM.driveRounds 3
        (MutexM.mrun MutexM.minit
          [MutexM.MEvent.acquire 0, MutexM.MEvent.acquire 1, MutexM.MEvent.acquire 2,
           MutexM.MEvent.acquire 3, MutexM.MEvent.release 0])).completedOrder
      = (MutexM.mrun MutexM.minit
          [MutexM.MEvent.acquire 0, MutexM.MEvent.acquire 1, MutexM.MEvent.acquire 2,
           MutexM.MEvent.acquire 3, MutexM.MEvent.release 0]).completedOrder
        ++ [1, 2, 3] :=
  mutex_fifo_amended [1, 2, 3]
    (MutexM.mrun MutexM.minit
      [MutexM.MEvent.acquire 0, MutexM.MEvent.acquire 1, MutexM.MEvent.acquire 2,
       MutexM.MEvent.acquire 3, MutexM.MEvent.release 0])
    ⟨by decide, by decide, by decide, by decide⟩

theorem interceptor_identity_witness :
    Inject.findCloseTag "plain text, no tags".toList = none
    ∧ Inject.restoreFinalize ["plain text".toList, ", no tags".toList]
        "<script></script>\n".toList
      = ("plain text, no tags".toList, none) := by
  have h : Inject.findCloseTag
      (["plain text".toList, ", no tags".toList] : List (List Char)).flatten = none := by
    decide
  refine ⟨by decide, ?_⟩
  have := (interceptor_identity ["plain text".toList, ", no tags".toList]
    "<script></script>\n".toList h).1
  rw [this]
  decide

end LivePreview
